import Mathlib

/-!
Formal model of the catalog replication and rewrite engine in
`munkilib/appleupdates.py`.

URLs and filesystem paths are modelled as lists of characters.  The Python
standard-library helpers the source calls (`urlparse.urlsplit`,
`urllib2.quote`, `os.path.normpath`, `os.path.join`, `os.path.dirname`,
`str.lstrip`) are embedded below with their Python 2.7 semantics, and the
module's own functions (`rewriteOneURL`, `rewriteURLsForProduct`,
`replicateURLtoFilesystem`, `writeFilteredUpdateCatalog`,
`cacheSwupdMetadata`, `installedApplePackagesChanged`,
`checkForSoftwareUpdates`) are embedded on top of them.  External
collaborators (the network fetcher, the preference store, the
`softwareupdate` binary) appear as explicit oracle inputs, and observable
effects (network fetches, catalog writes) are counted explicitly.
-/

/-- Characters allowed in a URL scheme, per Python 2.7 urlparse
(letters, digits, and the characters plus, minus, dot). -/
def schemeChar (c : Char) : Bool :=
  c.isAlpha || c.isDigit || c == '+' || c == '-' || c == '.'

/-- Drop the scheme part of a URL, per the scheme-splitting logic of
Python 2.7 urlparse.urlsplit (including its special case for http and
its port-number guard). -/
def dropScheme (url : List Char) : List Char :=
  match url.findIdx? (· == ':') with
  | none => url
  | some i =>
    if 0 < i then
      if url.take i = "http".toList then url.drop (i + 1)
      else if (url.take i).all schemeChar then
        let rest := url.drop (i + 1)
        if rest = [] ∨ ¬ rest.all Char.isDigit then rest else url
      else url
    else url

/-- Drop the network-location part of a URL (after the scheme has been
dropped): when the remainder starts with two slashes, everything up to the
next slash, question mark or hash sign is removed, per urlsplit. -/
def dropNetloc (url : List Char) : List Char :=
  if url.take 2 = ['/', '/'] then
    (url.drop 2).dropWhile (fun c => ¬ (c = '/' ∨ c = '?' ∨ c = '#'))
  else url

/-- The path component of a URL as computed by Python 2.7
urlparse.urlsplit: scheme and netloc dropped, then everything before the
first hash sign or question mark. -/
def urlsplitPath (url : List Char) : List Char :=
  (dropNetloc (dropScheme url)).takeWhile (fun c => ¬ (c = '#' ∨ c = '?'))

/-- Characters that Python 2.7 urllib.quote leaves unescaped with the
default safe set: letters, digits, underscore, dot, minus, and slash. -/
def quoteSafeChar (c : Char) : Bool :=
  c.isAlpha || c.isDigit || c == '_' || c == '.' || c == '-' || c == '/'

/-- Uppercase hexadecimal digit for a value below 16. -/
def hexDigit (n : Nat) : Char :=
  if n < 10 then Char.ofNat (48 + n) else Char.ofNat (55 + n)

/-- Percent-encoding of a single character, per Python 2.7 urllib.quote. -/
def quoteChar (c : Char) : List Char :=
  if quoteSafeChar c then [c]
  else ['%', hexDigit (c.toNat / 16 % 16), hexDigit (c.toNat % 16)]

/-- Python 2.7 urllib.quote with the default safe set. -/
def pctQuote (s : List Char) : List Char :=
  (s.map quoteChar).flatten

/-- The local mirror base URL built by rewriteOneURL:
the string file://localhost followed by the percent-encoded mirror
cache directory. -/
def mirrorBaseURL (root : List Char) : List Char :=
  "file://localhost".toList ++ pctQuote root

/-- Embedding of rewriteOneURL: URLs already below the mirror base are
returned unchanged; any other URL is replaced by the mirror base followed
by the URL's path component. -/
def rewriteOneURL (root url : List Char) : List Char :=
  let base := mirrorBaseURL root
  if base.isPrefixOf url then url
  else base ++ urlsplitPath url

/-- A list is a Boolean prefix of itself followed by anything. -/
theorem isPrefixOf_append_self (l t : List Char) :
    l.isPrefixOf (l ++ t) = true := by
  induction l with
  | nil => simp [List.isPrefixOf]
  | cons c cs ih => simp [List.isPrefixOf, ih]

/-- C2: a URL that already starts with the mirror base URL is returned
unchanged by rewriteOneURL, and rewriteOneURL is idempotent. -/
theorem rewriteOneURL_idempotent (root s url : List Char) :
    rewriteOneURL root (mirrorBaseURL root ++ s) = mirrorBaseURL root ++ s ∧
    rewriteOneURL root (rewriteOneURL root url) = rewriteOneURL root url := by
  constructor
  · unfold rewriteOneURL
    simp [isPrefixOf_append_self]
  · unfold rewriteOneURL
    by_cases h : (mirrorBaseURL root).isPrefixOf url = true
    · simp [h]
    · simp only [h, Bool.false_eq_true, if_neg, if_false]
      simp [isPrefixOf_append_self]

/-- A package record inside a product: the payload URL (key URL) and the
metadata URL (key MetadataURL), each possibly absent. -/
structure Package where
  url : Option (List Char)
  metadataURL : Option (List Char)
deriving DecidableEq

/-- A product record inside a catalog: the optional ServerMetadataURL, the
Packages array (absent is read as empty via dict.get), and the
Distributions dictionary, which the source reads by direct indexing and
which may therefore be missing. -/
structure Product where
  serverMetadataURL : Option (List Char)
  packages : List Package
  distributions : Option (List (List Char × List Char))
deriving DecidableEq

/-- One step of rewriteURLsForProduct's package loop: the payload URL is
rewritten only when the rewrite flag is set and the key is present; the
metadata URL is rewritten whenever present. -/
def rewritePackage (root : List Char) (rw : Bool) (p : Package) : Package :=
  let p1 := if rw then { p with url := p.url.map (rewriteOneURL root) } else p
  { p1 with metadataURL := p1.metadataURL.map (rewriteOneURL root) }

/-- Embedding of rewriteURLsForProduct.  The Python function mutates the
product in place: ServerMetadataURL first, then each package, then the
Distributions dictionary, which it indexes directly — a product without
Distributions raises KeyError after the earlier fields were already
rewritten.  The Boolean result records whether the pass completed without
raising. -/
def rewriteURLsForProduct (root : List Char) (product : Product)
    (rw : Bool) : Product × Bool :=
  let p1 := { product with
    serverMetadataURL := product.serverMetadataURL.map (rewriteOneURL root) }
  let p2 := { p1 with packages := p1.packages.map (rewritePackage root rw) }
  match p2.distributions with
  | none => (p2, false)
  | some d =>
    ({ p2 with
        distributions := some (d.map (fun kv => (kv.1, rewriteOneURL root kv.2))) },
      true)

/-- C1: the Local-Download pass (flag false) rewrites ServerMetadataURL,
every package MetadataURL and every distribution URL but leaves package
payload URLs unchanged; the Local-Install pass (flag true) additionally
rewrites payload URLs; every rewritten URL starts with the mirror base;
and on the concrete scenario the payload URL
https://vendor.example/pkgs/a.pkg with mirror root /var/mirror becomes
file://localhost/var/mirror/pkgs/a.pkg. -/
theorem rewriteURLsForProduct_variants (root : List Char) (product : Product) :
    (rewriteURLsForProduct root product false).1.serverMetadataURL
      = product.serverMetadataURL.map (rewriteOneURL root) ∧
    (rewriteURLsForProduct root product false).1.packages
      = product.packages.map
          (fun p => { p with metadataURL := p.metadataURL.map (rewriteOneURL root) }) ∧
    (rewriteURLsForProduct root product false).1.distributions
      = product.distributions.map
          (fun d => d.map (fun kv => (kv.1, rewriteOneURL root kv.2))) ∧
    (rewriteURLsForProduct root product true).1.serverMetadataURL
      = product.serverMetadataURL.map (rewriteOneURL root) ∧
    (rewriteURLsForProduct root product true).1.packages
      = product.packages.map
          (fun p => { p with url := p.url.map (rewriteOneURL root),
                             metadataURL := p.metadataURL.map (rewriteOneURL root) }) ∧
    (rewriteURLsForProduct root product true).1.distributions
      = product.distributions.map
          (fun d => d.map (fun kv => (kv.1, rewriteOneURL root kv.2))) ∧
    (∀ u : List Char,
      (mirrorBaseURL root).isPrefixOf (rewriteOneURL root u) = true) ∧
    rewriteOneURL "/var/mirror".toList "https://vendor.example/pkgs/a.pkg".toList
      = "file://localhost/var/mirror/pkgs/a.pkg".toList := by
  obtain ⟨smu, pkgs, dists⟩ := product
  refine ⟨?_, ?_, ?_, ?_, ?_, ?_, ?_, ?_⟩
  · cases dists <;> rfl
  · cases dists <;> rfl
  · cases dists <;> rfl
  · cases dists <;> rfl
  · cases dists <;> simp [rewriteURLsForProduct, rewritePackage]
  · cases dists <;> rfl
  · intro u
    unfold rewriteOneURL
    by_cases h : (mirrorBaseURL root).isPrefixOf u = true
    · simp [h]
    · simp [h, isPrefixOf_append_self]
  · decide

/-- C7 amended: the product-level rewrite completes without raising
exactly when the product has a Distributions mapping, for either value of
the package-URL flag. -/
theorem rewriteURLsForProduct_completes_iff_distributions
    (root : List Char) (product : Product) (rw : Bool) :
    (rewriteURLsForProduct root product rw).2 = product.distributions.isSome := by
  obtain ⟨smu, pkgs, dists⟩ := product
  cases dists <;> rfl

/-- C7 counterexample: a product that lacks a Distributions mapping makes
rewriteURLsForProduct raise a KeyError (the pass does not complete), for
the Local-Download flag value, contradicting the claim that the rewrite
pass tolerates a missing distributions field. -/
theorem rewriteURLsForProduct_missing_distributions_fails :
    (rewriteURLsForProduct "/var/mirror".toList
      { serverMetadataURL := none,
        packages := [{ url := some "https://vendor.example/pkgs/a.pkg".toList,
                       metadataURL := some "https://vendor.example/pkgs/a.pkm".toList }],
        distributions := none }
      false).2 = false := by
  rfl

/-- Python str.split on the slash character: splitting the empty string
yields one empty field, and every separator starts a new field. -/
def splitSlash : List Char → List (List Char)
  | [] => [[]]
  | c :: cs =>
    if c = '/' then [] :: splitSlash cs
    else
      match splitSlash cs with
      | [] => [[c]]
      | h :: t => (c :: h) :: t

/-- The two-character path component consisting of two dots. -/
def dotdot : List Char := ['.', '.']

/-- The component loop of Python 2.7 posixpath.normpath, with the stack of
kept components held in reverse order: empty and single-dot components are
dropped; a double-dot component is kept when the path is relative and the
stack is empty or already ends in double-dot, pops the stack when the
stack is non-empty, and is dropped otherwise. -/
def normStack : Bool → List (List Char) → List (List Char) → List (List Char)
  | _, acc, [] => acc
  | abs, acc, comp :: rest =>
    if comp = [] ∨ comp = ['.'] then normStack abs acc rest
    else if comp ≠ dotdot ∨ (¬ abs ∧ acc = []) ∨ acc.head? = some dotdot then
      normStack abs (comp :: acc) rest
    else if acc = [] then normStack abs acc rest
    else normStack abs acc.tail rest

/-- Python str.join with a slash separator. -/
def joinSlash : List (List Char) → List Char
  | [] => []
  | [c] => c
  | c :: c2 :: cs => c ++ '/' :: joinSlash (c2 :: cs)

/-- The number of leading slashes posixpath.normpath preserves: zero for
a relative path, two for a path starting with exactly two slashes, one
otherwise. -/
def initialSlashes (p : List Char) : Nat :=
  if p.head? = some '/' then
    if p.take 2 = ['/', '/'] ∧ p.take 3 ≠ ['/', '/', '/'] then 2 else 1
  else 0

/-- The body of posixpath.normpath: the preserved leading slashes
followed by the normalized components joined back with slashes. -/
def normpathCore (p : List Char) : List Char :=
  List.replicate (initialSlashes p) '/' ++
    joinSlash ((normStack (initialSlashes p != 0) [] (splitSlash p)).reverse)

/-- Embedding of Python 2.7 posixpath.normpath: empty input becomes a
single dot; one or two (but not three or more) leading slashes are
preserved; components are normalized by the stack loop; an empty result
becomes a single dot. -/
def normpath (p : List Char) : List Char :=
  if p = [] then ['.']
  else if normpathCore p = [] then ['.']
  else normpathCore p

/-- Python str.lstrip with a slash argument. -/
def lstripSlash (p : List Char) : List Char :=
  p.dropWhile (· == '/')

/-- Python 2.7 posixpath.join for the two-argument case used by the
source. -/
def posixJoin (a b : List Char) : List Char :=
  if b.head? = some '/' then b
  else if a = [] ∨ a.getLast? = some '/' then a ++ b
  else a ++ '/' :: b

/-- Python 2.7 posixpath.dirname: everything up to and including the last
slash, with trailing slashes stripped unless the result is all slashes. -/
def dirname (p : List Char) : List Char :=
  let head := (p.reverse.dropWhile (· ≠ '/')).reverse
  if head ≠ [] ∧ ¬ head.all (· == '/') then
    (head.reverse.dropWhile (· == '/')).reverse
  else head

/-- The local target path computed by replicateURLtoFilesystem: the URL's
path component, leading slashes stripped, normalized, joined to the
mirror root. -/
def replicateTargetPath (root url : List Char) : List Char :=
  posixJoin root (normpath (lstripSlash (urlsplitPath url)))

/-- A path lies inside a root directory when its normalized form is the
root itself or has the root followed by a slash as a prefix. -/
def insideRoot (root p : List Char) : Prop :=
  normpath p = root ∨ (root ++ ['/']).isPrefixOf (normpath p) = true

/-- C3 counterexample: the URL http://h/../etc/passwd with mirror root
/var/mirror yields the target path /var/mirror/../etc/passwd, which
normalizes to /var/etc/passwd — outside the mirror root, because
posixpath.normpath keeps leading double-dot segments of a relative
path. -/
theorem replicateTargetPath_escapes_root :
    replicateTargetPath "/var/mirror".toList "http://h/../etc/passwd".toList
      = "/var/mirror/../etc/passwd".toList ∧
    normpath "/var/mirror/../etc/passwd".toList = "/var/etc/passwd".toList ∧
    ¬ insideRoot "/var/mirror".toList
        (replicateTargetPath "/var/mirror".toList "http://h/../etc/passwd".toList) := by
  refine ⟨by decide, by decide, ?_⟩
  intro h
  rcases h with h | h <;> revert h <;> decide

/-- The filesystem state visible to replicateURLtoFilesystem: the set of
existing files and the set of existing directories, as lists of paths. -/
structure FS where
  files : List (List Char)
  dirs : List (List Char)
deriving DecidableEq

/-- Embedding of replicateURLtoFilesystem.  The oracle mkdirOK tells
whether os.makedirs would succeed, fetchOK whether the atomic fetch would
succeed.  The result is the returned path (none when ReplicationError is
raised), the filesystem after the call, and the number of network fetches
performed. -/
def replicateURLtoFilesystem (root : List Char) (fs : FS)
    (mkdirOK fetchOK : Bool) (url : List Char)
    (copy_only_if_missing : Bool) : Option (List Char) × FS × Nat :=
  let local_file_path := replicateTargetPath root url
  let local_dir_path := dirname local_file_path
  if copy_only_if_missing ∧ local_file_path ∈ fs.files then
    (some local_file_path, fs, 0)
  else if local_dir_path ∉ fs.dirs ∧ ¬ mkdirOK then (none, fs, 0)
  else
    let fs1 : FS :=
      if local_dir_path ∈ fs.dirs then fs
      else { fs with dirs := local_dir_path :: fs.dirs }
    if fetchOK then (some local_file_path, { fs1 with files := local_file_path :: fs1.files }, 1)
    else (none, fs1, 1)

/-- C4: with copy-only-if-missing set, a call whose target already exists
returns the target path, touches nothing and performs no fetch; and
starting from a state where the target is missing, two successive calls
(with directory creation and fetch succeeding) perform exactly one
network fetch in total, the second call performing none. -/
theorem replicate_copy_only_if_missing (root url : List Char)
    (fs fs' : FS) (mkdirOK fetchOK : Bool)
    (hhit : replicateTargetPath root url ∈ fs'.files)
    (hmiss : replicateTargetPath root url ∉ fs.files) :
    replicateURLtoFilesystem root fs' mkdirOK fetchOK url true
      = (some (replicateTargetPath root url), fs', 0) ∧
    (replicateURLtoFilesystem root fs true true url true).1
      = some (replicateTargetPath root url) ∧
    (replicateURLtoFilesystem root fs true true url true).2.2 = 1 ∧
    (replicateURLtoFilesystem root
        (replicateURLtoFilesystem root fs true true url true).2.1
        true true url true).2.2 = 0 ∧
    (replicateURLtoFilesystem root fs true true url true).2.2 +
      (replicateURLtoFilesystem root
        (replicateURLtoFilesystem root fs true true url true).2.1
        true true url true).2.2 = 1 := by
  have h1 : replicateURLtoFilesystem root fs' mkdirOK fetchOK url true
      = (some (replicateTargetPath root url), fs', 0) := by
    unfold replicateURLtoFilesystem
    rw [if_pos ⟨rfl, hhit⟩]
  obtain ⟨ds, h2⟩ : ∃ ds, replicateURLtoFilesystem root fs true true url true
      = (some (replicateTargetPath root url),
         FS.mk (replicateTargetPath root url :: fs.files) ds, 1) := by
    unfold replicateURLtoFilesystem
    rw [if_neg (fun h => hmiss h.2)]
    by_cases hd : dirname (replicateTargetPath root url) ∈ fs.dirs
    · exact ⟨fs.dirs, by simp [hd]⟩
    · exact ⟨dirname (replicateTargetPath root url) :: fs.dirs, by simp [hd]⟩
  have h3 : replicateURLtoFilesystem root
      (replicateURLtoFilesystem root fs true true url true).2.1 true true url true
      = (some (replicateTargetPath root url),
         (replicateURLtoFilesystem root fs true true url true).2.1, 0) := by
    rw [h2]
    unfold replicateURLtoFilesystem
    rw [if_pos ⟨rfl, List.mem_cons_self _ _⟩]
  refine ⟨h1, ?_, ?_, ?_, ?_⟩
  · rw [h2]
  · rw [h2]
  · rw [h3]
  · rw [h3, h2]
    rfl

/-- C4 witness: concrete instantiation at mirror root /var/mirror and URL
http://h/a/b.pkg, with an initially empty filesystem for the miss part
and a filesystem already holding the target for the hit part. -/
theorem replicate_copy_only_if_missing_witness :
    (replicateTargetPath "/var/mirror".toList "http://h/a/b.pkg".toList
        ∈ (FS.mk ["/var/mirror/a/b.pkg".toList] []).files) ∧
    (replicateTargetPath "/var/mirror".toList "http://h/a/b.pkg".toList
        ∉ (FS.mk [] []).files) ∧
    (replicateURLtoFilesystem "/var/mirror".toList
        (FS.mk ["/var/mirror/a/b.pkg".toList] []) true true
        "http://h/a/b.pkg".toList true
      = (some (replicateTargetPath "/var/mirror".toList "http://h/a/b.pkg".toList),
          FS.mk ["/var/mirror/a/b.pkg".toList] [], 0)) ∧
    (replicateURLtoFilesystem "/var/mirror".toList (FS.mk [] []) true true
        "http://h/a/b.pkg".toList true).2.2 +
      (replicateURLtoFilesystem "/var/mirror".toList
        (replicateURLtoFilesystem "/var/mirror".toList (FS.mk [] []) true true
          "http://h/a/b.pkg".toList true).2.1
        true true "http://h/a/b.pkg".toList true).2.2 = 1 := by
  have hhit : replicateTargetPath "/var/mirror".toList "http://h/a/b.pkg".toList
      ∈ (FS.mk ["/var/mirror/a/b.pkg".toList] []).files := by decide
  have hmiss : replicateTargetPath "/var/mirror".toList "http://h/a/b.pkg".toList
      ∉ (FS.mk [] []).files := by decide
  have h := replicate_copy_only_if_missing "/var/mirror".toList
    "http://h/a/b.pkg".toList (FS.mk [] [])
    (FS.mk ["/var/mirror/a/b.pkg".toList] []) true true hhit hmiss
  exact ⟨hhit, hmiss, h.1, h.2.2.2.2⟩

instance : Inhabited Package := ⟨⟨none, none⟩⟩

instance : Inhabited Product := ⟨⟨none, [], none⟩⟩

/-- A catalog document: the Products dictionary, possibly absent, as an
association list from product key to product. -/
structure Catalog where
  products : Option (List (List Char × Product))
deriving DecidableEq

instance : Inhabited Catalog := ⟨⟨none⟩⟩

/-- The keys of a catalog's Products dictionary, with an absent dictionary
read as empty. -/
def catalogKeys (c : Catalog) : List (List Char) :=
  match c.products with
  | none => []
  | some l => l.map (·.1)

/-- Dictionary lookup in a Products association list. -/
def lookupProduct (prods : List (List Char × Product)) (k : List Char) :
    Option Product :=
  (prods.find? (fun kv => kv.1 = k)).map (·.2)

/-- Python dictionary assignment on an association list: replace the value
when the key is present, append the binding otherwise. -/
def dictInsert (d : List (List Char × Product)) (k : List Char)
    (v : Product) : List (List Char × Product) :=
  if d.any (fun kv => kv.1 = k) then
    d.map (fun kv => if kv.1 = k then (k, v) else kv)
  else d ++ [(k, v)]

/-- The dictionary-building loop of writeFilteredUpdateCatalog: for each
requested key in order, look the product up in the extracted Products
dictionary and assign it; a missing key raises KeyError, modelled as
none. -/
def buildFiltered (prods : List (List Char × Product)) :
    List (List Char × Product) → List (List Char) →
    Option (List (List Char × Product))
  | acc, [] => some acc
  | acc, k :: ks =>
    match lookupProduct prods k with
    | none => none
    | some v => buildFiltered prods (dictInsert acc k v) ks

/-- Embedding of writeFilteredUpdateCatalog: when the extracted catalog
has a Products dictionary it is replaced by the filtered dictionary built
from the requested keys (none models the KeyError raised on a missing
key, in which case no catalog is written); when it has none the catalog is
written unchanged. -/
def writeFilteredUpdateCatalog (catalog : Catalog)
    (updatelist : List (List Char)) : Option Catalog :=
  match catalog.products with
  | none => some catalog
  | some prods =>
    match buildFiltered prods [] updatelist with
    | none => none
    | some fp => some { catalog with products := some fp }

/-- Key membership after a dictionary assignment. -/
theorem dictInsert_mem_keys (d : List (List Char × Product))
    (k v : _) (k' : List Char) :
    (k' ∈ (dictInsert d k v).map (·.1)) ↔
      (k' ∈ d.map (·.1) ∨ k' = k) := by
  unfold dictInsert
  by_cases h : d.any (fun kv => kv.1 = k) = true
  · rw [if_pos h]
    have hkeys : (d.map (fun kv => if kv.1 = k then (k, v) else kv)).map (·.1)
        = d.map (·.1) := by
      rw [List.map_map]
      apply List.map_congr_left
      intro kv _
      by_cases hk : kv.1 = k
      · simp [hk]
      · simp [hk]
    rw [hkeys]
    constructor
    · exact fun hm => Or.inl hm
    · rintro (hm | rfl)
      · exact hm
      · rcases List.any_eq_true.mp h with ⟨kv, hkv, hq⟩
        have : kv.1 = k' := of_decide_eq_true hq
        exact this ▸ List.mem_map_of_mem (·.1) hkv
  · rw [if_neg h]
    simp [List.map_append]

/-- The filtering loop succeeds when every requested key is present, and
the keys of the dictionary it builds are exactly the requested keys plus
the keys already accumulated. -/
theorem buildFiltered_keys (prods : List (List Char × Product)) :
    ∀ (ks : List (List Char)) (acc : List (List Char × Product)),
    (∀ k ∈ ks, (lookupProduct prods k).isSome) →
    ∃ fp, buildFiltered prods acc ks = some fp ∧
      ∀ k', (k' ∈ fp.map (·.1) ↔ k' ∈ acc.map (·.1) ∨ k' ∈ ks) := by
  intro ks
  induction ks with
  | nil =>
    intro acc _
    exact ⟨acc, rfl, by simp⟩
  | cons k ks ih =>
    intro acc hall
    have hk : (lookupProduct prods k).isSome := hall k (List.mem_cons_self _ _)
    obtain ⟨v, hv⟩ := Option.isSome_iff_exists.mp hk
    obtain ⟨fp, hfp, hkeys⟩ := ih (dictInsert acc k v)
      (fun k' hk' => hall k' (List.mem_cons_of_mem _ hk'))
    refine ⟨fp, ?_, ?_⟩
    · unfold buildFiltered
      rw [hv]
      exact hfp
    · intro k'
      rw [hkeys k', dictInsert_mem_keys]
      simp [List.mem_cons]
      tauto

/-- C5: when every requested key occurs in the extracted catalog's
Products dictionary, writeFilteredUpdateCatalog succeeds and the written
catalog's Products keys are exactly the requested keys — no requested key
is missing and no unrequested product is retained. -/
theorem writeFilteredUpdateCatalog_exact_keys (catalog : Catalog)
    (updatelist : List (List Char))
    (h : ∀ k ∈ updatelist, k ∈ catalogKeys catalog) :
    ∃ out, writeFilteredUpdateCatalog catalog updatelist = some out ∧
      ∀ k, (k ∈ catalogKeys out ↔ k ∈ updatelist) := by
  rcases hp : catalog.products with _ | prods
  · refine ⟨catalog, ?_, fun k => ?_⟩
    · simp only [writeFilteredUpdateCatalog, hp]
    · constructor
      · intro hk
        unfold catalogKeys at hk
        rw [hp] at hk
        exact absurd hk (List.not_mem_nil k)
      · intro hk
        have hmem := h k hk
        unfold catalogKeys at hmem
        rw [hp] at hmem
        exact absurd hmem (List.not_mem_nil k)
  · have hlook : ∀ k ∈ updatelist, (lookupProduct prods k).isSome := by
      intro k hk
      have hmem := h k hk
      unfold catalogKeys at hmem
      rw [hp] at hmem
      clear hp h hk
      induction prods with
      | nil => exact absurd hmem (List.not_mem_nil k)
      | cons kv rest ih =>
        by_cases hq : kv.1 = k
        · simp [lookupProduct, List.find?, hq]
        · have hk2 : k ∈ rest.map (·.1) := by
            rcases List.mem_cons.mp hmem with heq | hm
            · exact absurd heq.symm hq
            · exact hm
          have hstep : lookupProduct (kv :: rest) k = lookupProduct rest k := by
            simp [lookupProduct, List.find?, hq]
          rw [hstep]
          exact ih hk2
    obtain ⟨fp, hfp, hkeys⟩ := buildFiltered_keys prods updatelist [] hlook
    refine ⟨{ catalog with products := some fp }, ?_, fun k => ?_⟩
    · simp only [writeFilteredUpdateCatalog, hp, hfp]
    · have hk2 := hkeys k
      simp only [List.map_nil, List.not_mem_nil, false_or] at hk2
      unfold catalogKeys
      exact hk2

/-- C5 witness: concrete extracted catalog with products P1 and P2 and
request list containing only P1. -/
theorem writeFilteredUpdateCatalog_exact_keys_witness :
    (∀ k ∈ ["P1".toList], k ∈ catalogKeys
      (Catalog.mk (some [("P1".toList, Product.mk none [] (some [])),
                         ("P2".toList, Product.mk none [] (some []))]))) ∧
    ∃ out, writeFilteredUpdateCatalog
        (Catalog.mk (some [("P1".toList, Product.mk none [] (some [])),
                           ("P2".toList, Product.mk none [] (some []))]))
        ["P1".toList] = some out ∧
      ∀ k, (k ∈ catalogKeys out ↔ k ∈ ["P1".toList]) := by
  refine ⟨by decide, writeFilteredUpdateCatalog_exact_keys _ _ (by decide)⟩

/-- C8: when some requested key is absent from the extracted catalog's
Products dictionary, writeFilteredUpdateCatalog raises a KeyError (no
catalog is produced) instead of silently omitting the product. -/
theorem writeFilteredUpdateCatalog_missing_key_error (catalog : Catalog)
    (prods : List (List Char × Product)) (updatelist : List (List Char))
    (k : List Char) (hp : catalog.products = some prods)
    (hk : k ∈ updatelist) (habs : lookupProduct prods k = none) :
    writeFilteredUpdateCatalog catalog updatelist = none := by
  have hb : ∀ (ks : List (List Char)) (acc : List (List Char × Product)),
      k ∈ ks → buildFiltered prods acc ks = none := by
    intro ks
    induction ks with
    | nil => intro acc h; exact absurd h (List.not_mem_nil k)
    | cons k' ks ih =>
      intro acc h
      unfold buildFiltered
      rcases List.mem_cons.mp h with rfl | hmem
      · rw [habs]
      · match hl : lookupProduct prods k' with
        | none => rfl
        | some v => exact ih (dictInsert acc k' v) hmem
  simp only [writeFilteredUpdateCatalog, hp, hb updatelist [] hk]

/-- C8 witness: extracted catalog with products P1 and P2 and a request
list containing the absent key P3. -/
theorem writeFilteredUpdateCatalog_missing_key_error_witness :
    ((Catalog.mk (some [("P1".toList, Product.mk none [] (some [])),
                        ("P2".toList, Product.mk none [] (some []))])).products
      = some [("P1".toList, Product.mk none [] (some [])),
              ("P2".toList, Product.mk none [] (some []))]) ∧
    ("P3".toList ∈ ["P1".toList, "P3".toList]) ∧
    (lookupProduct [("P1".toList, Product.mk none [] (some [])),
                    ("P2".toList, Product.mk none [] (some []))] "P3".toList = none) ∧
    writeFilteredUpdateCatalog
      (Catalog.mk (some [("P1".toList, Product.mk none [] (some [])),
                         ("P2".toList, Product.mk none [] (some []))]))
      ["P1".toList, "P3".toList] = none := by
  refine ⟨rfl, by decide, by decide,
    writeFilteredUpdateCatalog_missing_key_error _ _ _ "P3".toList rfl
      (by decide) (by decide)⟩

/-- Embedding of installedApplePackagesChanged: the argument current is
the SHA-256 checksum of the pkgutil receipt dump, stored the
InstalledApplePackagesChecksum preference (absent modelled as none).
Returns the Boolean result together with the preference value after the
call (set_pref is executed only on the changed branch). -/
def installedApplePackagesChanged (current : Nat) (stored : Option Nat) :
    Bool × Option Nat :=
  if some current = stored then (false, stored)
  else (true, some current)

/-- C10: installedApplePackagesChanged consumes the change signal: the
stored preference after the call is the new checksum exactly when the
call returned true and is untouched when it returned false, and an
immediately repeated call with the same installed packages returns
false. -/
theorem installedApplePackagesChanged_pref_update (current : Nat)
    (stored : Option Nat) :
    (installedApplePackagesChanged current
        (installedApplePackagesChanged current stored).2).1 = false ∧
    (installedApplePackagesChanged current stored).2
      = (if (installedApplePackagesChanged current stored).1 then some current
         else stored) := by
  unfold installedApplePackagesChanged
  by_cases h : some current = stored
  · simp [h]
  · simp [h]

/-- Error raised inside cacheSwupdMetadata: a ReplicationError from a
failed replication or directory creation, or the KeyError from indexing a
missing Distributions dictionary. -/
inductive CacheErr
  | replication
  | key
deriving DecidableEq

/-- The per-product body of cacheSwupdMetadata's loop: replicate the
ServerMetadataURL when present, each package MetadataURL, then index the
Distributions dictionary (KeyError when absent) and replicate each
distribution URL.  The oracle fetchOK tells whether replication calls
succeed. -/
def cacheOneProduct (fetchOK : Bool) (p : Product) : Except CacheErr Unit :=
  if p.serverMetadataURL.isSome ∧ ¬ fetchOK then .error .replication
  else if (p.packages.any (fun pk => pk.metadataURL.isSome)) ∧ ¬ fetchOK then
    .error .replication
  else
    match p.distributions with
    | none => .error .key
    | some d => if ¬ d.isEmpty ∧ ¬ fetchOK then .error .replication else .ok ()

/-- The product loop of cacheSwupdMetadata, stopping at the first
error. -/
def cacheProducts (fetchOK : Bool) :
    List (List Char × Product) → Except CacheErr Unit
  | [] => .ok ()
  | (_, p) :: rest =>
    match cacheOneProduct fetchOK p with
    | .ok _ => cacheProducts fetchOK rest
    | .error e => .error e

/-- Embedding of cacheSwupdMetadata over the filtered catalog it reads
back: a catalog without Products returns early writing nothing; otherwise
each product's metadata is replicated, the catalogs directory is created
(oracle mkdirOK, failure raised as ReplicationError), and the two
rewritten catalog variants (Local-Download then Local-Install) are
written.  The result counts the rewritten catalog variants written. -/
def cacheSwupdMetadata (fetchOK mkdirOK : Bool) (filtered : Catalog) :
    Except CacheErr Nat :=
  match filtered.products with
  | none => .ok 0
  | some prods =>
    match cacheProducts fetchOK prods with
    | .error e => .error e
    | .ok _ => if ¬ mkdirOK then .error .replication else .ok 2

/-- Errors that can escape the refresh cycle: the KeyError raised by
filtering (or by a product without Distributions inside metadata
caching), a plist parse error, and a ReplicationError. -/
inductive PyErr
  | keyError
  | parseError
  | replicationError
deriving DecidableEq

/-- Externally observable effects of one checkForSoftwareUpdates call:
network fetches of the remote catalog, softwareupdate invocations (the
list run of getAvailableUpdates and the download run), filtered catalogs
written, and rewritten catalog variants written. -/
structure SUEffects where
  catalogFetches : Nat
  suRuns : Nat
  filterWrites : Nat
  rewriteWrites : Nat
deriving DecidableEq

/-- The oracle environment of one checkForSoftwareUpdates call: every
external observation the cycle can make.  oldCatalogHash is the checksum
of the cached download before the fetch and newCatalogHash the checksum
after it; catalogURLOK is whether a CatalogURL could be determined;
mkdirOK covers os.makedirs for the durable cache; fetchCatalog is the
conditional fetch result (none models MunkiDownloadError, some changed
the changed flag); pkgutilHash and storedPkgChecksum feed
installedApplePackagesChanged; updatesDownloaded is the result of
availableUpdatesAreDownloaded; updatelist the product keys reported by
getAvailableUpdates; extractedCatalog the parse of the extracted catalog
(none models a parse error); metadataFetchOK and catalogDirMkdirOK feed
cacheSwupdMetadata; downloadOK the result of downloadAvailableUpdates. -/
structure CheckEnv where
  oldCatalogHash : Nat
  newCatalogHash : Nat
  catalogURLOK : Bool
  mkdirOK : Bool
  fetchCatalog : Option Bool
  pkgutilHash : Nat
  storedPkgChecksum : Option Nat
  updatesDownloaded : Bool
  updatelist : List (List Char)
  extractedCatalog : Option Catalog
  metadataFetchOK : Bool
  catalogDirMkdirOK : Bool
  downloadOK : Bool
deriving DecidableEq

/-- Embedding of checkForSoftwareUpdates.  The result carries the Boolean
return value (or the exception that escapes), the effects performed, and
the stored package checksum preference after the call.  ReplicationError
from the catalog fetch path and from cacheSwupdMetadata is caught and
turned into a False return; the KeyError of writeFilteredUpdateCatalog
and of cacheSwupdMetadata and the parse error of reading the extracted
catalog are not caught and escape. -/
def checkForSoftwareUpdates (env : CheckEnv) (forcecheck : Bool) :
    Except PyErr Bool × SUEffects × Option Nat :=
  if ¬ env.catalogURLOK then (.ok false, ⟨0, 0, 0, 0⟩, env.storedPkgChecksum)
  else if ¬ env.mkdirOK then (.ok false, ⟨0, 0, 0, 0⟩, env.storedPkgChecksum)
  else
    match env.fetchCatalog with
    | none => (.ok false, ⟨1, 0, 0, 0⟩, env.storedPkgChecksum)
    | some changed =>
      let fc1 := forcecheck ||
        (changed && !(env.oldCatalogHash == env.newCatalogHash))
      let pkgRes := installedApplePackagesChanged env.pkgutilHash
        env.storedPkgChecksum
      let fc2 := fc1 || pkgRes.1
      let fc3 := fc2 || !env.updatesDownloaded
      if ¬ fc3 then (.ok false, ⟨1, 0, 0, 0⟩, pkgRes.2)
      else if env.updatelist.isEmpty then (.ok false, ⟨1, 1, 0, 0⟩, pkgRes.2)
      else
        match env.extractedCatalog with
        | none => (.error .parseError, ⟨1, 1, 0, 0⟩, pkgRes.2)
        | some catalog =>
          match writeFilteredUpdateCatalog catalog env.updatelist with
          | none => (.error .keyError, ⟨1, 1, 0, 0⟩, pkgRes.2)
          | some filteredCat =>
            match cacheSwupdMetadata env.metadataFetchOK env.catalogDirMkdirOK
                filteredCat with
            | .error .replication => (.ok false, ⟨1, 1, 1, 0⟩, pkgRes.2)
            | .error .key => (.error .keyError, ⟨1, 1, 1, 0⟩, pkgRes.2)
            | .ok n =>
              if env.downloadOK then (.ok true, ⟨1, 2, 1, n⟩, pkgRes.2)
              else (.ok false, ⟨1, 2, 1, n⟩, pkgRes.2)

/-- C6 amended: when the fetched catalog's checksum is unchanged, the
installed-package fingerprint matches the stored one, the previously
announced downloads are all present, and no forced check was requested,
the cycle short-circuits after the conditional catalog fetch: it returns
False, runs softwareupdate zero times, writes no filtered catalog and no
rewritten catalog variant, leaves the stored checksum untouched — but it
does perform the one conditional network fetch of the catalog. -/
theorem checkForSoftwareUpdates_short_circuit (env : CheckEnv) (changed : Bool)
    (hurl : env.catalogURLOK = true) (hmk : env.mkdirOK = true)
    (hfetch : env.fetchCatalog = some changed)
    (hhash : env.oldCatalogHash = env.newCatalogHash)
    (hpkg : env.storedPkgChecksum = some env.pkgutilHash)
    (hdl : env.updatesDownloaded = true) :
    checkForSoftwareUpdates env false
      = (.ok false, ⟨1, 0, 0, 0⟩, env.storedPkgChecksum) := by
  unfold checkForSoftwareUpdates
  rw [hurl, hfetch]
  have hpkgres : installedApplePackagesChanged env.pkgutilHash
      env.storedPkgChecksum = (false, env.storedPkgChecksum) := by
    unfold installedApplePackagesChanged
    rw [if_pos hpkg.symm]
  simp [hmk, hpkgres, hhash, hdl]

/-- C6 witness: a concrete environment satisfying all short-circuit
conditions. -/
theorem checkForSoftwareUpdates_short_circuit_witness :
    checkForSoftwareUpdates
      (CheckEnv.mk 7 7 true true (some false) 11 (some 11) true []
        none true true true) false
      = (.ok false, ⟨1, 0, 0, 0⟩, some 11) := by
  exact checkForSoftwareUpdates_short_circuit
    (CheckEnv.mk 7 7 true true (some false) 11 (some 11) true []
      none true true true) false rfl rfl rfl rfl rfl rfl

/-- C6 counterexample: in the very environment where all short-circuit
conditions hold (catalog checksum unchanged, fingerprint unchanged,
downloads present, no forced check), the cycle still performs one network
fetch of the catalog — the conditional fetch inside cacheAppleSUScatalog
happens before the short-circuit test, so the claim that no network
access is performed is false. -/
theorem checkForSoftwareUpdates_short_circuit_fetches :
    (checkForSoftwareUpdates
      (CheckEnv.mk 7 7 true true (some false) 11 (some 11) true []
        none true true true) false).2.1.catalogFetches = 1 ∧
    (1 : Nat) ≠ 0 := by
  exact ⟨rfl, by decide⟩

/-- C9 amended: a ReplicationError (including a wrapped fetch error)
never escapes checkForSoftwareUpdates — every replication failure is
caught and turned into a False return; the exceptions that do escape are
the filter KeyError and parse errors. -/
theorem checkForSoftwareUpdates_no_replication_error_escape
    (env : CheckEnv) (forcecheck : Bool) :
    (checkForSoftwareUpdates env forcecheck).1 ≠ .error .replicationError := by
  unfold checkForSoftwareUpdates
  rcases env with ⟨oh, nh, curl, mk, fc, ph, sp, ud, ul, ec, mf, cd, dok⟩
  dsimp only
  split
  · simp
  · split
    · simp
    · split
      · simp
      · split
        · simp
        · split
          · simp
          · split
            · simp
            · split
              · simp
              · split
                · simp
                · simp
                · split
                  · simp
                  · simp

/-- C9 counterexample: a concrete refresh cycle in which the applicable
list names a product key absent from the extracted catalog: the KeyError
raised by writeFilteredUpdateCatalog escapes checkForSoftwareUpdates to
its caller instead of being caught, so the claim that no core error
propagates is false. -/
theorem checkForSoftwareUpdates_propagates_key_error :
    (checkForSoftwareUpdates
      (CheckEnv.mk 7 8 true true (some true) 11 (some 11) true
        ["P3".toList]
        (some (Catalog.mk (some [("P1".toList, Product.mk none [] (some []))])))
        true true true) false).1 = .error .keyError := by
  rfl

/-- Splitting on slashes always yields at least one field. -/
theorem splitSlash_ne_nil (p : List Char) : splitSlash p ≠ [] := by
  cases p with
  | nil => simp [splitSlash]
  | cons c cs =>
    unfold splitSlash
    by_cases hc : c = '/'
    · rw [if_pos hc]; simp
    · rw [if_neg hc]
      cases splitSlash cs <;> simp

/-- No field produced by splitting on slashes contains a slash. -/
theorem splitSlash_no_slash (p : List Char) : ∀ c ∈ splitSlash p, '/' ∉ c := by
  induction p with
  | nil => intro c hc; rw [List.mem_singleton.mp hc]; exact List.not_mem_nil '/'
  | cons a as ih =>
    intro c hc
    unfold splitSlash at hc
    by_cases ha : a = '/'
    · rw [if_pos ha] at hc
      rcases List.mem_cons.mp hc with rfl | hc2
      · exact List.not_mem_nil '/'
      · exact ih c hc2
    · rw [if_neg ha] at hc
      rcases hsp : splitSlash as with _ | ⟨h, t⟩
      · exact absurd hsp (splitSlash_ne_nil as)
      · rw [hsp] at hc
        rcases List.mem_cons.mp hc with rfl | hc2
        · intro hmem
          rcases List.mem_cons.mp hmem with heq | hmem2
          · exact ha heq.symm
          · exact ih h (by rw [hsp]; exact List.mem_cons_self _ _) hmem2
        · exact ih c (by rw [hsp]; exact List.mem_cons_of_mem _ hc2)

/-- Splitting a path that starts with a slash yields a leading empty
field. -/
theorem splitSlash_cons_slash (p : List Char) :
    splitSlash ('/' :: p) = [] :: splitSlash p := by
  simp [splitSlash]

/-- Splitting a path that starts with a non-slash character prepends that
character to the first field. -/
theorem splitSlash_cons_of_ne (c : Char) (cs : List Char) (hc : ¬ c = '/')
    (h : List Char) (t : List (List Char)) (hsp : splitSlash cs = h :: t) :
    splitSlash (c :: cs) = (c :: h) :: t := by
  unfold splitSlash
  rw [if_neg hc, hsp]

/-- Splitting distributes over concatenation at a slash. -/
theorem splitSlash_append (xs ys : List Char) :
    splitSlash (xs ++ '/' :: ys) = splitSlash xs ++ splitSlash ys := by
  induction xs with
  | nil => simp [splitSlash_cons_slash, splitSlash]
  | cons c cs ih =>
    by_cases hc : c = '/'
    · subst hc
      rw [List.cons_append, splitSlash_cons_slash, splitSlash_cons_slash, ih]
      rfl
    · rcases hsp : splitSlash cs with _ | ⟨h, t⟩
      · exact absurd hsp (splitSlash_ne_nil cs)
      · have h2 : splitSlash (cs ++ '/' :: ys) = h :: (t ++ splitSlash ys) := by
          rw [ih, hsp]
          rfl
        rw [List.cons_append, splitSlash_cons_of_ne c _ hc _ _ h2,
          splitSlash_cons_of_ne c _ hc _ _ hsp]
        rfl

/-- A slash-free string splits into a single field. -/
theorem splitSlash_of_no_slash (c : List Char) (h : '/' ∉ c) :
    splitSlash c = [c] := by
  induction c with
  | nil => rfl
  | cons a as ih =>
    have ha : ¬ a = '/' := by
      intro ha
      exact h (by rw [← ha]; exact List.mem_cons_self a as)
    exact splitSlash_cons_of_ne a as ha as []
      (ih (fun hm => h (List.mem_cons_of_mem a hm)))

/-- Joining non-empty slash-free fields and splitting again is the
identity. -/
theorem splitSlash_joinSlash (comps : List (List Char)) (h : comps ≠ [])
    (hall : ∀ c ∈ comps, '/' ∉ c) : splitSlash (joinSlash comps) = comps := by
  induction comps with
  | nil => exact absurd rfl h
  | cons c cs ih =>
    cases cs with
    | nil =>
      unfold joinSlash
      exact splitSlash_of_no_slash c (hall c (List.mem_cons_self _ _))
    | cons c2 cs2 =>
      unfold joinSlash
      rw [splitSlash_append,
        splitSlash_of_no_slash c (hall c (List.mem_cons_self _ _)),
        ih (by simp) (fun d hd => hall d (List.mem_cons_of_mem _ hd))]
      rfl

/-- Joining a non-empty list of fields whose first field is non-empty
yields a non-empty string. -/
theorem joinSlash_cons_ne_nil (c : List Char) (cs : List (List Char))
    (h : c ≠ []) : joinSlash (c :: cs) ≠ [] := by
  cases cs with
  | nil => exact h
  | cons c2 cs2 =>
    unfold joinSlash
    cases c with
    | nil => exact absurd rfl h
    | cons a as => simp

/-- The join of a non-empty list of fields starts with the first field. -/
theorem joinSlash_cons_eq_append (c : List Char) (cs : List (List Char)) :
    ∃ t, joinSlash (c :: cs) = c ++ t := by
  cases cs with
  | nil => exact ⟨[], by simp [joinSlash]⟩
  | cons c2 cs2 => exact ⟨'/' :: joinSlash (c2 :: cs2), rfl⟩

/-- Joining distributes over concatenation of two non-empty field
lists. -/
theorem joinSlash_append_ne (l1 l2 : List (List Char)) (h1 : l1 ≠ [])
    (h2 : l2 ≠ []) :
    joinSlash (l1 ++ l2) = joinSlash l1 ++ '/' :: joinSlash l2 := by
  induction l1 with
  | nil => exact absurd rfl h1
  | cons c cs ih =>
    cases cs with
    | nil =>
      cases l2 with
      | nil => exact absurd rfl h2
      | cons d ds => simp [joinSlash]
    | cons c2 cs2 =>
      have hstep : joinSlash ((c :: c2 :: cs2) ++ l2)
          = c ++ '/' :: joinSlash ((c2 :: cs2) ++ l2) := rfl
      rw [hstep, ih (by simp)]
      show c ++ '/' :: (joinSlash (c2 :: cs2) ++ '/' :: joinSlash l2)
        = (c ++ '/' :: joinSlash (c2 :: cs2)) ++ '/' :: joinSlash l2
      simp [List.append_assoc]

/-- Step equation of the normalization loop: an empty or single-dot
component is skipped. -/
theorem normStack_skip (abs : Bool) (acc : List (List Char))
    (comp : List Char) (rest : List (List Char))
    (h : comp = [] ∨ comp = ['.']) :
    normStack abs acc (comp :: rest) = normStack abs acc rest := by
  unfold normStack
  rw [if_pos h]
  rw [normStack.eq_def]

/-- Step equation of the normalization loop: a component satisfying the
push condition is pushed onto the stack. -/
theorem normStack_push (abs : Bool) (acc : List (List Char))
    (comp : List Char) (rest : List (List Char))
    (h1 : ¬ (comp = [] ∨ comp = ['.']))
    (h2 : comp ≠ dotdot ∨ (¬ abs ∧ acc = []) ∨ acc.head? = some dotdot) :
    normStack abs acc (comp :: rest) = normStack abs (comp :: acc) rest := by
  unfold normStack
  rw [if_neg h1, if_pos h2]
  rw [normStack.eq_def]

/-- Step equation of the normalization loop: a double-dot on an absolute
path with an empty stack is dropped. -/
theorem normStack_drop (abs : Bool) (acc : List (List Char))
    (comp : List Char) (rest : List (List Char))
    (h1 : ¬ (comp = [] ∨ comp = ['.']))
    (h2 : ¬ (comp ≠ dotdot ∨ (¬ abs ∧ acc = []) ∨ acc.head? = some dotdot))
    (h3 : acc = []) :
    normStack abs acc (comp :: rest) = normStack abs acc rest := by
  unfold normStack
  rw [if_neg h1, if_neg h2, if_pos h3]
  rw [normStack.eq_def]

/-- Step equation of the normalization loop: a double-dot with a
non-empty stack pops the stack. -/
theorem normStack_pop (abs : Bool) (acc : List (List Char))
    (comp : List Char) (rest : List (List Char))
    (h1 : ¬ (comp = [] ∨ comp = ['.']))
    (h2 : ¬ (comp ≠ dotdot ∨ (¬ abs ∧ acc = []) ∨ acc.head? = some dotdot))
    (h3 : ¬ acc = []) :
    normStack abs acc (comp :: rest) = normStack abs acc.tail rest := by
  unfold normStack
  rw [if_neg h1, if_neg h2, if_neg h3]
  rw [normStack.eq_def]

/-- The normalization stack loop processes concatenated component lists
sequentially. -/
theorem normStack_append (abs : Bool) (l1 l2 : List (List Char)) :
    ∀ acc, normStack abs acc (l1 ++ l2)
      = normStack abs (normStack abs acc l1) l2 := by
  induction l1 with
  | nil => intro acc; rfl
  | cons c cs ih =>
    intro acc
    rw [List.cons_append]
    by_cases h1 : c = [] ∨ c = ['.']
    · rw [normStack_skip abs acc c (cs ++ l2) h1, normStack_skip abs acc c cs h1,
        ih]
    · by_cases h2 : c ≠ dotdot ∨ (¬ abs ∧ acc = []) ∨ acc.head? = some dotdot
      · rw [normStack_push abs acc c (cs ++ l2) h1 h2,
          normStack_push abs acc c cs h1 h2, ih]
      · by_cases h3 : acc = []
        · rw [normStack_drop abs acc c (cs ++ l2) h1 h2 h3,
            normStack_drop abs acc c cs h1 h2 h3, ih]
        · rw [normStack_pop abs acc c (cs ++ l2) h1 h2 h3,
            normStack_pop abs acc c cs h1 h2 h3, ih]

/-- Components that are non-empty and neither dot nor double-dot are all
pushed by the normalization loop. -/
theorem normStack_push_clean (abs : Bool) (comps : List (List Char))
    (hall : ∀ c ∈ comps, c ≠ [] ∧ c ≠ ['.'] ∧ c ≠ dotdot) :
    ∀ acc, normStack abs acc comps = comps.reverse ++ acc := by
  induction comps with
  | nil => intro acc; simp [normStack]
  | cons c cs ih =>
    intro acc
    obtain ⟨hne, hnd, hndd⟩ := hall c (List.mem_cons_self _ _)
    unfold normStack
    rw [if_neg (by rintro (h | h); exact hne h; exact hnd h),
      if_pos (Or.inl hndd),
      ih (fun d hd => hall d (List.mem_cons_of_mem _ hd))]
    simp

/-- Invariant of the normalization stack: starting from a stack of
non-empty, non-dot, slash-free entries and processing slash-free
components, every stack entry stays non-empty, non-dot and
slash-free. -/
theorem normStack_stack_clean (abs : Bool) (comps : List (List Char)) :
    ∀ acc, (∀ c ∈ acc, c ≠ [] ∧ c ≠ ['.'] ∧ '/' ∉ c) →
    (∀ c ∈ comps, '/' ∉ c) →
    ∀ c ∈ normStack abs acc comps, c ≠ [] ∧ c ≠ ['.'] ∧ '/' ∉ c := by
  induction comps with
  | nil => intro acc hacc _ c hc; exact hacc c hc
  | cons comp rest ih =>
    intro acc hacc hcomps
    have hrest : ∀ c ∈ rest, '/' ∉ c :=
      fun c hc => hcomps c (List.mem_cons_of_mem _ hc)
    unfold normStack
    by_cases h1 : comp = [] ∨ comp = ['.']
    · rw [if_pos h1]; exact ih acc hacc hrest
    · rw [if_neg h1]
      by_cases h2 : comp ≠ dotdot ∨ (¬ abs ∧ acc = []) ∨ acc.head? = some dotdot
      · rw [if_pos h2]
        refine ih (comp :: acc) ?_ hrest
        intro c hc
        rcases List.mem_cons.mp hc with rfl | hc2
        · push_neg at h1
          exact ⟨h1.1, h1.2, hcomps c (List.mem_cons_self _ _)⟩
        · exact hacc c hc2
      · rw [if_neg h2]
        by_cases h3 : acc = []
        · rw [if_pos h3]; exact ih acc hacc hrest
        · rw [if_neg h3]
          refine ih acc.tail ?_ hrest
          intro c hc
          refine hacc c ?_
          cases acc with
          | nil => exact absurd rfl h3
          | cons a as => exact List.mem_cons_of_mem _ hc

/-- The last element of a concatenation with a non-empty right part is
the last element of the right part. -/
theorem getLast?_append_right_ne (l1 l2 : List Char) (h : l2 ≠ []) :
    (l1 ++ l2).getLast? = l2.getLast? := by
  induction l1 with
  | nil => rfl
  | cons c cs ih =>
    rw [List.cons_append]
    have hne : cs ++ l2 ≠ [] := by
      intro hz
      exact h (List.append_eq_nil.mp hz).2
    cases hcc : cs ++ l2 with
    | nil => exact absurd hcc hne
    | cons d ds =>
      rw [List.getLast?_cons_cons, ← hcc, ih]

/-- The last element of a list, when defined, is a member of it. -/
theorem mem_of_getLast?_eq (l : List Char) (a : Char) :
    l.getLast? = some a → a ∈ l := by
  induction l with
  | nil => intro h; cases h
  | cons b bs ih =>
    intro h
    cases bs with
    | nil =>
      have hb : b = a := by
        have : (some b : Option Char) = some a := h
        exact Option.some.inj this
      rw [hb]
      exact List.mem_cons_self _ _
    | cons c cs =>
      rw [List.getLast?_cons_cons] at h
      exact List.mem_cons_of_mem _ (ih h)

/-- The join of non-empty slash-free fields does not end in a slash. -/
theorem joinSlash_getLast_ne_slash (comps : List (List Char))
    (h : comps ≠ []) (hall : ∀ c ∈ comps, c ≠ [] ∧ '/' ∉ c) :
    (joinSlash comps).getLast? ≠ some '/' := by
  induction comps with
  | nil => exact absurd rfl h
  | cons c cs ih =>
    cases cs with
    | nil =>
      intro hlast
      exact (hall c (List.mem_cons_self _ _)).2 (mem_of_getLast?_eq c '/' hlast)
    | cons c2 cs2 =>
      have hj2 : joinSlash (c2 :: cs2) ≠ [] :=
        joinSlash_cons_ne_nil c2 cs2
          (hall c2 (List.mem_cons_of_mem _ (List.mem_cons_self _ _))).1
      have hstep : joinSlash (c :: c2 :: cs2)
          = c ++ '/' :: joinSlash (c2 :: cs2) := rfl
      rw [hstep, getLast?_append_right_ne _ _ (by simp)]
      have hcons : ('/' :: joinSlash (c2 :: cs2))
          = ['/'] ++ joinSlash (c2 :: cs2) := rfl
      rw [hcons, getLast?_append_right_ne _ _ hj2]
      exact ih (by simp) (fun d hd => hall d (List.mem_cons_of_mem _ hd))

/-- Stripping leading slashes leaves a string that does not start with a
slash. -/
theorem lstripSlash_head_ne_slash (p : List Char) :
    (lstripSlash p).head? ≠ some '/' := by
  unfold lstripSlash
  induction p with
  | nil => simp
  | cons c cs ih =>
    rw [List.dropWhile_cons]
    by_cases hc : (c == '/') = true
    · rw [if_pos hc]; exact ih
    · rw [if_neg hc]
      simp only [List.head?_cons, ne_eq, Option.some.injEq]
      intro h
      exact hc (by rw [h]; decide)

/-- Structure of posixpath.normpath on a relative path: the result is
either a single dot or the slash-join of a non-empty list of components
that are non-empty, not a dot, and slash-free, and splitting the result
recovers exactly those components. -/
theorem normpath_relative_structure (p : List Char)
    (hp : p.head? ≠ some '/') :
    normpath p = ['.'] ∨
    ∃ comps, comps ≠ [] ∧
      (∀ c ∈ comps, c ≠ [] ∧ c ≠ ['.'] ∧ '/' ∉ c) ∧
      normpath p = joinSlash comps ∧
      splitSlash (normpath p) = comps := by
  have hs : initialSlashes p = 0 := by
    unfold initialSlashes
    rw [if_neg hp]
  have hcore : normpathCore p
      = joinSlash ((normStack false [] (splitSlash p)).reverse) := by
    unfold normpathCore
    rw [hs]
    rfl
  have hclean : ∀ c ∈ (normStack false [] (splitSlash p)).reverse,
      c ≠ [] ∧ c ≠ ['.'] ∧ '/' ∉ c := by
    intro c hc
    exact normStack_stack_clean false (splitSlash p) []
      (fun d hd => absurd hd (List.not_mem_nil d))
      (splitSlash_no_slash p) c (List.mem_reverse.mp hc)
  rcases hstack : (normStack false [] (splitSlash p)).reverse with _ | ⟨c, cs⟩
  · left
    unfold normpath
    by_cases hnil : p = []
    · rw [if_pos hnil]
    · rw [if_neg hnil, if_pos (by rw [hcore, hstack]; rfl)]
  · right
    have hcne : c ≠ [] := (hclean c (by rw [hstack]; exact List.mem_cons_self _ _)).1
    have hjoin_ne : joinSlash (c :: cs) ≠ [] := joinSlash_cons_ne_nil c cs hcne
    have hpne : p ≠ [] := by
      intro hz
      subst hz
      have : (normStack false [] (splitSlash ([] : List Char))).reverse
          = ([] : List (List Char)) := rfl
      rw [this] at hstack
      exact List.noConfusion hstack
    have hnp : normpath p = joinSlash (c :: cs) := by
      unfold normpath
      rw [if_neg hpne, hcore, hstack, if_neg hjoin_ne]
    refine ⟨c :: cs, by simp, ?_, hnp, ?_⟩
    · intro d hd
      exact hclean d (by rw [hstack]; exact hd)
    · rw [hnp]
      exact splitSlash_joinSlash (c :: cs) (by simp)
        (fun d hd => (hclean d (by rw [hstack]; exact hd)).2.2)

/-- The normalization loop on an empty component list returns the
stack. -/
theorem normStack_nil (abs : Bool) (acc : List (List Char)) :
    normStack abs acc [] = acc := rfl

/-- normpath agrees with its core on a non-empty path whose core is
non-empty. -/
theorem normpath_eq_core (p : List Char) (hp : p ≠ [])
    (hcore : normpathCore p ≠ []) : normpath p = normpathCore p := by
  unfold normpath
  rw [if_neg hp, if_neg hcore]

/-- The join of non-empty slash-free fields does not start with a
slash. -/
theorem joinSlash_head_ne_slash (comps : List (List Char)) (h : comps ≠ [])
    (hall : ∀ c ∈ comps, c ≠ [] ∧ '/' ∉ c) :
    (joinSlash comps).head? ≠ some '/' := by
  cases comps with
  | nil => exact absurd rfl h
  | cons c cs =>
    obtain ⟨t, ht⟩ := joinSlash_cons_eq_append c cs
    obtain ⟨hcne, hcns⟩ := hall c (List.mem_cons_self _ _)
    rw [ht]
    cases c with
    | nil => exact absurd rfl hcne
    | cons a as =>
      rw [List.cons_append, List.head?_cons]
      intro hh
      have ha : a = '/' := Option.some.inj hh
      subst ha
      exact hcns (List.mem_cons_self _ _)

/-- A path of the shape slash, join of root components, slash, rest has
exactly one preserved leading slash when the first root component does
not start with a slash. -/
theorem initialSlashes_root (j rest : List Char) (a : Char) (t : List Char)
    (hat : j = a :: t) (ha : ¬ a = '/') :
    initialSlashes (('/' :: j) ++ '/' :: rest) = 1 := by
  subst hat
  unfold initialSlashes
  simp [ha]

/-- C3 amended: for a mirror root of the shape slash followed by
slash-joined clean components, the target path computed by
replicateURLtoFilesystem for any URL whose normalized relative path
contains no double-dot segment lies inside the mirror root (its
normalization is the root itself or extends the root by a slash). -/
theorem replicateTargetPath_inside_root (rcomps : List (List Char))
    (url : List Char) (hr : rcomps ≠ [])
    (hc : ∀ c ∈ rcomps, c ≠ [] ∧ c ≠ ['.'] ∧ c ≠ dotdot ∧ '/' ∉ c)
    (hsafe : dotdot ∉ splitSlash (normpath (lstripSlash (urlsplitPath url)))) :
    insideRoot ('/' :: joinSlash rcomps)
      (replicateTargetPath ('/' :: joinSlash rcomps) url) := by
  have hc3 : ∀ c ∈ rcomps, c ≠ [] ∧ c ≠ ['.'] ∧ c ≠ dotdot :=
    fun c h => ⟨(hc c h).1, (hc c h).2.1, (hc c h).2.2.1⟩
  have hc2 : ∀ c ∈ rcomps, c ≠ [] ∧ '/' ∉ c :=
    fun c h => ⟨(hc c h).1, (hc c h).2.2.2⟩
  have hcs : ∀ c ∈ rcomps, '/' ∉ c := fun c h => (hc c h).2.2.2
  have hjr_ne : joinSlash rcomps ≠ [] := by
    cases rcomps with
    | nil => exact absurd rfl hr
    | cons c cs =>
      exact joinSlash_cons_ne_nil c cs (hc2 c (List.mem_cons_self _ _)).1
  have hsplit_r : splitSlash (joinSlash rcomps) = rcomps :=
    splitSlash_joinSlash rcomps hr hcs
  have hshape : ∃ a t, joinSlash rcomps = a :: t ∧ ¬ a = '/' := by
    cases rcomps with
    | nil => exact absurd rfl hr
    | cons c cs =>
      obtain ⟨t, ht⟩ := joinSlash_cons_eq_append c cs
      obtain ⟨hcne, hcns⟩ := hc2 c (List.mem_cons_self _ _)
      cases c with
      | nil => exact absurd rfl hcne
      | cons a as =>
        refine ⟨a, as ++ t, by rw [ht]; rfl, ?_⟩
        intro ha
        subst ha
        exact hcns (List.mem_cons_self _ _)
  obtain ⟨a0, t0, hat0, ha0⟩ := hshape
  have hroot_last : ('/' :: joinSlash rcomps).getLast? ≠ some '/' := by
    have hca : ('/' :: joinSlash rcomps) = ['/'] ++ joinSlash rcomps := rfl
    rw [hca, getLast?_append_right_ne _ _ hjr_ne]
    exact joinSlash_getLast_ne_slash rcomps hr hc2
  have hcond : ¬ (('/' :: joinSlash rcomps) = [] ∨
      ('/' :: joinSlash rcomps).getLast? = some '/') := by
    rintro (h | h)
    · exact List.noConfusion h
    · exact hroot_last h
  have hstrip : (lstripSlash (urlsplitPath url)).head? ≠ some '/' :=
    lstripSlash_head_ne_slash (urlsplitPath url)
  have htne : ('/' :: joinSlash rcomps)
      ++ '/' :: normpath (lstripSlash (urlsplitPath url)) ≠ [] := by
    simp
  obtain hdot | ⟨comps, hcomps_ne, hcomps_clean, hrel_eq, hrel_split⟩ :=
    normpath_relative_structure (lstripSlash (urlsplitPath url)) hstrip
  · -- the normalized relative path is a single dot: the target is root/.
    have hrel_head :
        (normpath (lstripSlash (urlsplitPath url))).head? ≠ some '/' := by
      rw [hdot]
      decide
    have htarget : replicateTargetPath ('/' :: joinSlash rcomps) url
        = ('/' :: joinSlash rcomps)
          ++ '/' :: normpath (lstripSlash (urlsplitPath url)) := by
      unfold replicateTargetPath posixJoin
      rw [if_neg hrel_head, if_neg hcond]
    have hsp_rel : splitSlash (normpath (lstripSlash (urlsplitPath url)))
        = [['.']] := by
      rw [hdot]
      rfl
    have hsplit_t : splitSlash (('/' :: joinSlash rcomps)
        ++ '/' :: normpath (lstripSlash (urlsplitPath url)))
        = [] :: (rcomps ++ [['.']]) := by
      rw [List.cons_append, splitSlash_cons_slash, splitSlash_append,
        hsplit_r, hsp_rel]
    have hslash_t : initialSlashes (('/' :: joinSlash rcomps)
        ++ '/' :: normpath (lstripSlash (urlsplitPath url))) = 1 :=
      initialSlashes_root _ _ a0 t0 hat0 ha0
    have hcore_t : normpathCore (('/' :: joinSlash rcomps)
        ++ '/' :: normpath (lstripSlash (urlsplitPath url)))
        = '/' :: joinSlash rcomps := by
      unfold normpathCore
      rw [hslash_t, hsplit_t]
      rw [show ((1 : Nat) != 0) = true from rfl]
      rw [normStack_skip true [] [] _ (Or.inl rfl),
        normStack_append true rcomps [['.']],
        normStack_push_clean true rcomps hc3,
        normStack_skip true _ ['.'] [] (Or.inr rfl),
        normStack_nil]
      simp
    have hnp_t : normpath (('/' :: joinSlash rcomps)
        ++ '/' :: normpath (lstripSlash (urlsplitPath url)))
        = '/' :: joinSlash rcomps := by
      rw [normpath_eq_core _ htne
        (by rw [hcore_t]; exact List.cons_ne_nil _ _), hcore_t]
    unfold insideRoot
    left
    rw [htarget, hnp_t]
  · -- the normalized relative path has clean components
    have hnotdd : dotdot ∉ comps := by
      rw [hrel_split] at hsafe
      exact hsafe
    have hcomps3 : ∀ c ∈ comps, c ≠ [] ∧ c ≠ ['.'] ∧ c ≠ dotdot :=
      fun c h => ⟨(hcomps_clean c h).1, (hcomps_clean c h).2.1,
        fun hd => hnotdd (hd ▸ h)⟩
    have hall3 : ∀ c ∈ rcomps ++ comps, c ≠ [] ∧ c ≠ ['.'] ∧ c ≠ dotdot := by
      intro c hcm
      rcases List.mem_append.mp hcm with h | h
      · exact hc3 c h
      · exact hcomps3 c h
    have hrel_head :
        (normpath (lstripSlash (urlsplitPath url))).head? ≠ some '/' := by
      rw [hrel_eq]
      exact joinSlash_head_ne_slash comps hcomps_ne
        (fun c h => ⟨(hcomps_clean c h).1, (hcomps_clean c h).2.2⟩)
    have htarget : replicateTargetPath ('/' :: joinSlash rcomps) url
        = ('/' :: joinSlash rcomps)
          ++ '/' :: normpath (lstripSlash (urlsplitPath url)) := by
      unfold replicateTargetPath posixJoin
      rw [if_neg hrel_head, if_neg hcond]
    have hsplit_t : splitSlash (('/' :: joinSlash rcomps)
        ++ '/' :: normpath (lstripSlash (urlsplitPath url)))
        = [] :: (rcomps ++ comps) := by
      rw [List.cons_append, splitSlash_cons_slash, splitSlash_append,
        hsplit_r, hrel_split]
    have hslash_t : initialSlashes (('/' :: joinSlash rcomps)
        ++ '/' :: normpath (lstripSlash (urlsplitPath url))) = 1 :=
      initialSlashes_root _ _ a0 t0 hat0 ha0
    have hj : joinSlash (rcomps ++ comps)
        = joinSlash rcomps ++ '/' :: joinSlash comps :=
      joinSlash_append_ne rcomps comps hr hcomps_ne
    have hcore_t : normpathCore (('/' :: joinSlash rcomps)
        ++ '/' :: normpath (lstripSlash (urlsplitPath url)))
        = '/' :: joinSlash (rcomps ++ comps) := by
      unfold normpathCore
      rw [hslash_t, hsplit_t]
      rw [show ((1 : Nat) != 0) = true from rfl]
      rw [normStack_skip true [] [] _ (Or.inl rfl),
        normStack_push_clean true (rcomps ++ comps) hall3]
      simp
    have hnp_t : normpath (('/' :: joinSlash rcomps)
        ++ '/' :: normpath (lstripSlash (urlsplitPath url)))
        = ('/' :: joinSlash rcomps)
          ++ '/' :: normpath (lstripSlash (urlsplitPath url)) := by
      rw [normpath_eq_core _ htne
        (by rw [hcore_t]; exact List.cons_ne_nil _ _), hcore_t, hj, hrel_eq]
      rfl
    unfold insideRoot
    right
    rw [htarget, hnp_t]
    have hassoc : ('/' :: joinSlash rcomps)
        ++ '/' :: normpath (lstripSlash (urlsplitPath url))
        = (('/' :: joinSlash rcomps) ++ ['/'])
          ++ normpath (lstripSlash (urlsplitPath url)) := by
      rw [List.append_assoc]
      rfl
    rw [hassoc]
    exact isPrefixOf_append_self _ _

/-- C3 amended witness: mirror root /var/mirror (components var and
mirror) and the URL of the concrete scenario; the computed target
/var/mirror/pkgs/a.pkg lies inside the mirror root. -/
theorem replicateTargetPath_inside_root_witness :
    (["var".toList, "mirror".toList] ≠ ([] : List (List Char))) ∧
    (∀ c ∈ ["var".toList, "mirror".toList],
      c ≠ [] ∧ c ≠ ['.'] ∧ c ≠ dotdot ∧ '/' ∉ c) ∧
    (dotdot ∉ splitSlash (normpath (lstripSlash
      (urlsplitPath "https://vendor.example/pkgs/a.pkg".toList)))) ∧
    insideRoot ('/' :: joinSlash ["var".toList, "mirror".toList])
      (replicateTargetPath ('/' :: joinSlash ["var".toList, "mirror".toList])
        "https://vendor.example/pkgs/a.pkg".toList) := by
  refine ⟨by decide, by decide, by decide, ?_⟩
  exact replicateTargetPath_inside_root ["var".toList, "mirror".toList]
    "https://vendor.example/pkgs/a.pkg".toList (by decide) (by decide)
    (by decide)
